import Mathlib

/-!
Shallow embedding of the `rust-matrix` repository: a dense, row-major
matrix container (`src/matrix/src/lib.rs`), its row iterators
(`src/matrix/src/iter.rs`), the parallel multiplication
(`src/matrix/src/oper.rs`) and the naive reference multiplication
(`src/benches/matrix_multiplication/src/lib.rs`).

Rust panics are embedded as explicit failure values: constructor /
multiplication panics become `Except MatrixError`, and the panics that
slice indexing can raise inside the iterators become `Except Unit`.
Mutable slices (`RowsMut`, the row views it yields) are embedded as
index windows into the matrix buffer, with writes modelled as functional
updates of the buffer.
-/

set_option maxRecDepth 4000

namespace RustMatrix

/-- The error taxonomy of the library: the two panic families of the
constructors (`InvalidDimension`, carrying the name of the offending
dimension) and of the multiplication routines (`DimensionMismatch`,
carrying both offending sizes). -/
inductive MatrixError where
  | invalidDimension (dimension_name : String)
  | dimensionMismatch (a_num_columns : Nat) (b_num_rows : Nat)
deriving DecidableEq, Repr

/-- `Matrix<T>` from `src/matrix/src/lib.rs`: a flat row-major buffer
plus the row and column counts. -/
structure Matrix (T : Type) where
  data : List T
  num_rows : Nat
  num_columns : Nat
deriving DecidableEq, Repr

/-- `Matrix::full`: matrix of shape `(num_rows, num_columns)` filled with
`fill_value`; panics (here: errors) if `num_rows` or `num_columns` is 0,
checking the row count first. -/
def Matrix.full {T : Type} (num_rows num_columns : Nat) (fill_value : T) :
    Except MatrixError (Matrix T) :=
  if num_rows = 0 then .error (.invalidDimension "rows")
  else if num_columns = 0 then .error (.invalidDimension "columns")
  else .ok ⟨List.replicate (num_rows * num_columns) fill_value, num_rows, num_columns⟩

/-- `Matrix::new`: `full` with the element type's default value. -/
def Matrix.new {T : Type} [Inhabited T] (num_rows num_columns : Nat) :
    Except MatrixError (Matrix T) :=
  Matrix.full num_rows num_columns default

/-- `Matrix::zeros`: `full` with the element type's zero. -/
def Matrix.zeros {T : Type} [Zero T] (num_rows num_columns : Nat) :
    Except MatrixError (Matrix T) :=
  Matrix.full num_rows num_columns 0

/-- `Matrix::ones`: `full` with the element type's one. -/
def Matrix.ones {T : Type} [One T] (num_rows num_columns : Nat) :
    Except MatrixError (Matrix T) :=
  Matrix.full num_rows num_columns 1

/-- `From<[[T; N]; M]> for Matrix<T>`: builds the matrix from `M` nested
rows of `N` elements each, flattening in row-major order; panics (here:
errors) if `M` or `N` is 0, checking `M` first.  The const-generic shape
guarantee of the Rust array type is recovered by hypotheses
`array.length = M` and `∀ row ∈ array, row.length = N` where needed. -/
def Matrix.fromRows {T : Type} (M N : Nat) (array : List (List T)) :
    Except MatrixError (Matrix T) :=
  if M = 0 then .error (.invalidDimension "rows")
  else if N = 0 then .error (.invalidDimension "columns")
  else .ok ⟨array.flatten, M, N⟩

/-- `Matrix::shape`. -/
def Matrix.shape {T : Type} (m : Matrix T) : Nat × Nat :=
  (m.num_rows, m.num_columns)

/-- `Matrix::as_flattened`: the whole backing buffer. -/
def Matrix.as_flattened {T : Type} (m : Matrix T) : List T :=
  m.data

/-- `Index<usize> for Matrix`: row `row_index` is the sub-range
`[row_index * num_columns, (row_index + 1) * num_columns)` of `data`
(Rust panics out of range; all uses below are in range). -/
def Matrix.row {T : Type} (m : Matrix T) (row_index : Nat) : List T :=
  (m.data.drop (row_index * m.num_columns)).take m.num_columns

/-- Element read `m[i][j]` (row indexing followed by slice indexing);
in-range in every use below, with `0` as the out-of-range default. -/
def Matrix.entry {T : Type} [Zero T] (m : Matrix T) (i j : Nat) : T :=
  (m.row i).getD j 0

/-- Element write `m[i][j] = v` through `IndexMut` (a write into the row
slice is a write into the backing buffer at offset `i*num_columns + j`). -/
def Matrix.writeAt {T : Type} (m : Matrix T) (i j : Nat) (v : T) : Matrix T :=
  { m with data := m.data.set (i * m.num_columns + j) v }

/-- The validity invariant of every live `Matrix` (spec §3): positive
dimension counts and a buffer of exactly `num_rows * num_columns`
elements. -/
def Matrix.Wf {T : Type} (m : Matrix T) : Prop :=
  0 < m.num_rows ∧ 0 < m.num_columns ∧
    m.data.length = m.num_rows * m.num_columns

instance {T : Type} (m : Matrix T) : Decidable m.Wf := by
  unfold Matrix.Wf; infer_instance

/-! ### The immutable row iterator `Rows` (`src/matrix/src/iter.rs`) -/

/-- `Rows<'a, T>`: the remaining sub-slice of the buffer plus the fixed
row width. -/
structure Rows (T : Type) where
  slice : List T
  num_columns : Nat
deriving DecidableEq, Repr

/-- `Rows::len`: remaining slice length divided by the column width. -/
def Rows.len {T : Type} (r : Rows T) : Nat :=
  r.slice.length / r.num_columns

/-- `Rows::next` (`Iterator::next`): `None` on the empty slice, otherwise
`split_at(num_columns)`, returning the head and retaining the tail.
`split_at` panics (`.error ()`) if `num_columns` exceeds the slice
length. -/
def Rows.next {T : Type} (r : Rows T) :
    Except Unit (Option (List T) × Rows T) :=
  if r.slice.isEmpty then .ok (none, r)
  else if r.num_columns ≤ r.slice.length then
    .ok (some (r.slice.take r.num_columns),
      ⟨r.slice.drop r.num_columns, r.num_columns⟩)
  else .error ()

/-- `Rows::size_hint`: exact lower and upper bound. -/
def Rows.size_hint {T : Type} (r : Rows T) : Nat × Option Nat :=
  if r.slice.isEmpty then (0, some 0) else (r.len, some r.len)

/-- `Rows::nth` (`skip_to`): if `n > len` the slice is emptied and `None`
returned; otherwise the row slice `[n*num_columns, n*num_columns +
num_columns)` is returned and everything up to its end dropped.  The
slice indexing panics (`.error ()`) when the requested end exceeds the
remaining length. -/
def Rows.nth {T : Type} (r : Rows T) (n : Nat) :
    Except Unit (Option (List T) × Rows T) :=
  if n > r.len then .ok (none, ⟨[], r.num_columns⟩)
  else
    let first := n * r.num_columns
    let past := first + r.num_columns
    if past ≤ r.slice.length then
      .ok (some ((r.slice.drop first).take r.num_columns),
        ⟨r.slice.drop past, r.num_columns⟩)
    else .error ()

/-- `Rows::last` (`take_last`): `None` on the empty slice, otherwise the
final `num_columns` elements of the remaining slice, directly.  The
subtraction `slice.len() - num_columns` underflows (panics, `.error ()`)
when the width exceeds the remaining length. -/
def Rows.last {T : Type} (r : Rows T) : Except Unit (Option (List T)) :=
  if r.slice.isEmpty then .ok none
  else if r.num_columns ≤ r.slice.length then
    .ok (some (r.slice.drop (r.slice.length - r.num_columns)))
  else .error ()

/-- Repeated `next` until exhaustion, collecting the yielded rows in
order (fuel-indexed; any fuel above the row count is enough). -/
def Rows.drain {T : Type} : Nat → Rows T → Except Unit (List (List T))
  | 0, _ => .error ()
  | fuel + 1, r =>
    match r.next with
    | .error _ => .error ()
    | .ok (none, _) => .ok []
    | .ok (some row, r2) => (Rows.drain fuel r2).map (fun rest => row :: rest)

/-- `k + 1` consecutive `next` calls, returning the last call's result
(`advanceMany r k` is the outcome of the `(k+1)`-th `advance`). -/
def Rows.advanceMany {T : Type} (r : Rows T) : Nat →
    Except Unit (Option (List T) × Rows T)
  | 0 => r.next
  | k + 1 =>
    match r.next with
    | .error e => .error e
    | .ok (_, r2) => r2.advanceMany k

/-- `Matrix::rows`: a fresh `Rows` over the whole buffer. -/
def Matrix.rows {T : Type} (m : Matrix T) : Rows T :=
  ⟨m.data, m.num_columns⟩

/-! ### The mutable row iterator `RowsMut`

A Rust mutable sub-slice of the matrix buffer is embedded as an index
window `[start, stop)` into that buffer; the views it yields are
`RowView` windows.  Writes through a view are functional updates of the
ambient buffer. -/

/-- An exclusive row view: the window `[start, start + len)` of the
matrix buffer. -/
structure RowView where
  start : Nat
  len : Nat
deriving DecidableEq, Repr

/-- `RowsMut<'a, T>`: the remaining window `[start, stop)` of the buffer
plus the fixed row width. -/
structure RowsMut where
  start : Nat
  stop : Nat
  num_columns : Nat
deriving DecidableEq, Repr

/-- `RowsMut::len`. -/
def RowsMut.len (r : RowsMut) : Nat :=
  (r.stop - r.start) / r.num_columns

/-- `RowsMut::next`: splits the remaining window into an exclusive head
view of one row width and the retained tail window (`split_at_mut`
panics, `.error ()`, if the width exceeds the remaining length). -/
def RowsMut.next (r : RowsMut) : Except Unit (Option RowView × RowsMut) :=
  if r.stop ≤ r.start then .ok (none, r)
  else if r.start + r.num_columns ≤ r.stop then
    .ok (some ⟨r.start, r.num_columns⟩, { r with start := r.start + r.num_columns })
  else .error ()

/-- `RowsMut::size_hint`. -/
def RowsMut.size_hint (r : RowsMut) : Nat × Option Nat :=
  if r.stop ≤ r.start then (0, some 0) else (r.len, some r.len)

/-- `RowsMut::nth`: if `n > len` the window is emptied and `None`
returned; otherwise `split_at_mut(n*num_columns + num_columns)` carves
off the head (panicking, `.error ()`, when that end exceeds the
remaining length), the tail is retained, and the trailing row of the
head is the yielded exclusive view. -/
def RowsMut.nth (r : RowsMut) (n : Nat) :
    Except Unit (Option RowView × RowsMut) :=
  if n > r.len then .ok (none, { r with start := r.stop })
  else
    let first := n * r.num_columns
    let past := first + r.num_columns
    if r.start + past ≤ r.stop then
      .ok (some ⟨r.start + first, r.num_columns⟩,
        { r with start := r.start + past })
    else .error ()

/-- `RowsMut::last`: the final `num_columns`-wide window of the remaining
window, directly (`None` when empty; the length subtraction underflows,
`.error ()`, when the width exceeds the remaining length). -/
def RowsMut.last (r : RowsMut) : Except Unit (Option RowView) :=
  if r.stop ≤ r.start then .ok none
  else if r.num_columns ≤ r.stop - r.start then
    .ok (some ⟨r.stop - r.num_columns, r.num_columns⟩)
  else .error ()

/-- Repeated `RowsMut.next` until exhaustion, collecting the yielded
views in order. -/
def RowsMut.drain : Nat → RowsMut → Except Unit (List RowView)
  | 0, _ => .error ()
  | fuel + 1, r =>
    match r.next with
    | .error _ => .error ()
    | .ok (none, _) => .ok []
    | .ok (some v, r2) => (RowsMut.drain fuel r2).map (fun rest => v :: rest)

/-- `k + 1` consecutive `RowsMut.next` calls, returning the last call's
result. -/
def RowsMut.advanceMany (r : RowsMut) : Nat →
    Except Unit (Option RowView × RowsMut)
  | 0 => r.next
  | k + 1 =>
    match r.next with
    | .error e => .error e
    | .ok (_, r2) => r2.advanceMany k

/-- `Matrix::rows_mut`: a fresh `RowsMut` over the whole buffer. -/
def Matrix.rows_mut {T : Type} (m : Matrix T) : RowsMut :=
  ⟨0, m.data.length, m.num_columns⟩

/-- Reading a row view: the elements of the buffer inside the window. -/
def readView {T : Type} (buf : List T) (v : RowView) : List T :=
  (buf.drop v.start).take v.len

/-- `std::mem::swap(&mut va[i], &mut vb[j])`: swaps the two buffer cells
addressed through the views (both indexings are in range in every use
below). -/
def swapThrough {T : Type} (buf : List T) (va vb : RowView) (i j : Nat) :
    List T :=
  let p := va.start + i
  let q := vb.start + j
  match buf[p]?, buf[q]? with
  | some x, some y => (buf.set p y).set q x
  | _, _ => buf

/-! ### Multiplication -/

/-- Splitting a flat buffer into `length / c`-many consecutive chunks of
width `c`: the sequence of rows the iterators traverse. -/
def chunkRowsAux {T : Type} (c : Nat) : Nat → List T → List (List T)
  | 0, _ => []
  | n + 1, l => if l.isEmpty then [] else l.take c :: chunkRowsAux c n (l.drop c)

/-- The rows of a flat buffer of width `c`. -/
def chunkRows {T : Type} (c : Nat) (l : List T) : List (List T) :=
  chunkRowsAux c (l.length / c) l

/-- One `aik`-step of the parallel kernel:
`ci.iter_mut().zip(bk.iter()).for_each(|(cij, bkj)| *cij += *aik * *bkj)`. -/
def rowUpdate {T : Type} [Add T] [Mul T] (ci bk : List T) (aik : T) : List T :=
  (ci.zip bk).map (fun p => p.1 + aik * p.2)

/-- The per-output-row body of `Matrix::mul`:
`b.rows().zip(ai.iter()).for_each(|(bk, aik)| ...)`, folding the update
over the pairs `(bk, aik)` in increasing `k` order. -/
def mulRowLoop {T : Type} [Add T] [Mul T] (bRows : List (List T))
    (ai ci : List T) : List T :=
  (bRows.zip ai).foldl (fun acc p => rowUpdate acc p.1 p.2) ci

/-- `Matrix::mul` (`src/matrix/src/oper.rs`): after the shape check,
allocates `c = zeros(a.num_rows, b.num_columns)` and replaces each of
its rows — `c.rows_mut().zip(a.rows())`, each pair processed
independently (the rayon fan-out touches disjoint output rows, so the
result is the row-wise computation embedded here) — by the accumulated
row. -/
def Matrix.mul {T : Type} [Zero T] [Add T] [Mul T] (a b : Matrix T) :
    Except MatrixError (Matrix T) :=
  if a.num_columns ≠ b.num_rows then
    .error (.dimensionMismatch a.num_columns b.num_rows)
  else
    match Matrix.zeros (T := T) a.num_rows b.num_columns with
    | .error e => .error e
    | .ok c =>
      .ok { c with data :=
        (((chunkRows b.num_columns c.data).zip (chunkRows a.num_columns a.data)).map
          (fun p => mulRowLoop (chunkRows b.num_columns b.data) p.2 p.1)).flatten }

/-- `matmul_naive` (`src/benches/matrix_multiplication/src/lib.rs`):
after the same shape check, allocates `c = zeros(a.num_rows,
b.num_columns)` and writes every cell `c[i][j]` with the accumulator
`res`, built from `0` by `res += ai[k] * b[k][j]` over increasing `k`. -/
def matmul_naive {T : Type} [Zero T] [Add T] [Mul T] (a b : Matrix T) :
    Except MatrixError (Matrix T) :=
  if a.num_columns ≠ b.num_rows then
    .error (.dimensionMismatch a.num_columns b.num_rows)
  else
    match Matrix.zeros (T := T) a.num_rows b.num_columns with
    | .error e => .error e
    | .ok c =>
      .ok { c with data :=
        ((List.range a.num_rows).map (fun i =>
          (List.range b.num_columns).map (fun j =>
            (List.range a.num_columns).foldl
              (fun res k => res + a.entry i k * b.entry k j) 0))).flatten }

/-- The mathematical matrix product (the spec's words, for comparison
with the two implementations): shape `(a.num_rows, b.num_columns)`,
cell `(i, j)` the inner product `∑ k < a.num_columns, a[i][k] * b[k][j]`. -/
def mathProduct {T : Type} [AddCommMonoid T] [Mul T] (a b : Matrix T) :
    Matrix T :=
  ⟨((List.range a.num_rows).map (fun i =>
      (List.range b.num_columns).map (fun j =>
        ∑ k ∈ Finset.range a.num_columns, a.entry i k * b.entry k j))).flatten,
    a.num_rows, b.num_columns⟩

/-! ### Claim specifications (the properties the claims assert, as
`Prop`-valued definitions over the embedded operations) -/

/-- The property asserted by C5 for a well-formed matrix `m` and a row
index `k < m.num_rows`: on a fresh iterator from `rows()` (resp.
`rows_mut()`), `skip_to(k)` yields row `k` in exactly the state that
`k+1` consecutive `advance()` calls produce, the remaining count is then
`num_rows - k - 1`, and the next retrieval yields row `k+1` when one
exists (the end-of-sequence signal when `k` was the final row). -/
def SkipToFresh {T : Type} (m : Matrix T) (k : Nat) : Prop :=
  (Rows.nth m.rows k =
      .ok (some (m.row k),
        ⟨m.data.drop ((k + 1) * m.num_columns), m.num_columns⟩) ∧
    Rows.advanceMany m.rows k =
      .ok (some (m.row k),
        ⟨m.data.drop ((k + 1) * m.num_columns), m.num_columns⟩) ∧
    Rows.len ⟨m.data.drop ((k + 1) * m.num_columns), m.num_columns⟩ =
      m.num_rows - k - 1 ∧
    (k + 1 < m.num_rows →
      Rows.next (⟨m.data.drop ((k + 1) * m.num_columns), m.num_columns⟩ : Rows T) =
        .ok (some (m.row (k + 1)),
          ⟨m.data.drop ((k + 2) * m.num_columns), m.num_columns⟩)) ∧
    (k + 1 = m.num_rows →
      Rows.next (⟨m.data.drop ((k + 1) * m.num_columns), m.num_columns⟩ : Rows T) =
        .ok (none,
          ⟨m.data.drop ((k + 1) * m.num_columns), m.num_columns⟩))) ∧
  (RowsMut.nth m.rows_mut k =
      .ok (some ⟨k * m.num_columns, m.num_columns⟩,
        ⟨(k + 1) * m.num_columns, m.data.length, m.num_columns⟩) ∧
    RowsMut.advanceMany m.rows_mut k =
      .ok (some ⟨k * m.num_columns, m.num_columns⟩,
        ⟨(k + 1) * m.num_columns, m.data.length, m.num_columns⟩) ∧
    readView m.data ⟨k * m.num_columns, m.num_columns⟩ = m.row k ∧
    RowsMut.len ⟨(k + 1) * m.num_columns, m.data.length, m.num_columns⟩ =
      m.num_rows - k - 1 ∧
    (k + 1 < m.num_rows →
      RowsMut.next ⟨(k + 1) * m.num_columns, m.data.length, m.num_columns⟩ =
        .ok (some ⟨(k + 1) * m.num_columns, m.num_columns⟩,
          ⟨(k + 2) * m.num_columns, m.data.length, m.num_columns⟩) ∧
      readView m.data ⟨(k + 1) * m.num_columns, m.num_columns⟩ = m.row (k + 1)))

/-- The property asserted by C6 for a well-formed matrix `m`: draining a
fresh `rows()` iterator yields exactly `num_rows` slices — the rows of
the buffer, of length `num_columns` each, in increasing row order — and
their concatenation is `as_flattened()`. -/
def RowsExhaustion {T : Type} (m : Matrix T) : Prop :=
  Rows.drain (m.num_rows + 1) m.rows = .ok (chunkRows m.num_columns m.data) ∧
  (chunkRows m.num_columns m.data).length = m.num_rows ∧
  (∀ x ∈ chunkRows m.num_columns m.data, x.length = m.num_columns) ∧
  (∀ i < m.num_rows, (chunkRows m.num_columns m.data).getD i [] = m.row i) ∧
  (chunkRows m.num_columns m.data).flatten = m.as_flattened

/-- The property asserted by C7 for any reachable iterator state holding
the rows `rs` (each of width `c`; for the mutable variant, the window of
`rs.length` rows starting at offset `s`): `take_last()` returns exactly
the last element of what forward traversal to exhaustion yields — and the
end-of-sequence signal when no rows remain (`rs = []`). -/
def TakeLastSpec {T : Type} (c : Nat) (rs : List (List T)) (s : Nat) : Prop :=
  Rows.last ⟨rs.flatten, c⟩ = .ok rs.getLast? ∧
  Rows.drain (rs.length + 1) ⟨rs.flatten, c⟩ = .ok rs ∧
  RowsMut.last ⟨s, s + rs.length * c, c⟩ =
    .ok (((List.range rs.length).map
      (fun i => (⟨s + i * c, c⟩ : RowView))).getLast?) ∧
  RowsMut.drain (rs.length + 1) ⟨s, s + rs.length * c, c⟩ =
    .ok ((List.range rs.length).map (fun i => (⟨s + i * c, c⟩ : RowView)))

/-! ### List helpers -/

theorem listGetDRange {T : Type} (d : T) (l : List T) :
    (List.range l.length).map (fun k => l.getD k d) = l := by
  apply List.ext_getElem (by simp)
  intro j h1 h2
  simp only [List.getElem_map, List.getElem_range]
  exact List.getD_eq_getElem l d h2

theorem listReplicateZip {T U : Type} (x : T) :
    ∀ (l : List U), (List.replicate l.length x).zip l = l.map (fun y => (x, y))
  | [] => rfl
  | _ :: t => by
    simp only [List.length_cons, List.replicate_succ, List.zip_cons_cons,
      List.map_cons, List.cons.injEq, true_and]
    exact listReplicateZip x t

theorem listReplicateZipLen {T U : Type} (x : T) (n : Nat) (l : List U)
    (h : l.length = n) :
    (List.replicate n x).zip l = l.map (fun y => (x, y)) := by
  subst h
  exact listReplicateZip x l

theorem flattenLength {T : Type} (c : Nat) :
    ∀ (L : List (List T)), (∀ x ∈ L, x.length = c) →
      L.flatten.length = L.length * c
  | [], _ => by simp
  | x :: t, h => by
    have hx : x.length = c := h x (by simp)
    have ht := flattenLength c t (fun y hy => h y (by simp [hy]))
    simp only [List.flatten_cons, List.length_append, hx, ht,
      List.length_cons, Nat.succ_mul]
    omega

theorem flattenDrop {T : Type} (c : Nat) :
    ∀ (L : List (List T)), (∀ x ∈ L, x.length = c) → ∀ i,
      L.flatten.drop (i * c) = (L.drop i).flatten
  | [], _, i => by simp
  | x :: t, h, 0 => by simp
  | x :: t, h, i + 1 => by
    have hx : x.length = c := h x (by simp)
    have ht := flattenDrop c t (fun y hy => h y (by simp [hy])) i
    have harith : (i + 1) * c = x.length + i * c := by rw [hx]; ring
    simp only [List.flatten_cons, harith]
    rw [← List.drop_drop, List.drop_left, ht, List.drop_succ_cons]

theorem flattenRow {T : Type} (c : Nat) (L : List (List T))
    (hL : ∀ x ∈ L, x.length = c) (i : Nat) (hi : i < L.length) :
    (L.flatten.drop (i * c)).take c = L.getD i [] := by
  rw [flattenDrop c L hL i, List.drop_eq_getElem_cons hi, List.flatten_cons,
    List.getD_eq_getElem L [] hi, ← hL L[i] (List.getElem_mem hi)]
  exact List.take_left _ _

theorem dropLengthPred {T : Type} :
    ∀ (l : List T) (h : l ≠ []), l.drop (l.length - 1) = [l.getLast h]
  | [x], _ => rfl
  | x :: y :: t, _ => by
    have ih := dropLengthPred (y :: t) (by simp)
    simp only [List.length_cons, Nat.add_sub_cancel, List.drop_succ_cons]
    rw [List.getLast_cons (by simp)]
    simpa using ih

theorem foldlAddRange {M : Type} [AddCommMonoid M] (f : Nat → M) :
    ∀ n, (List.range n).foldl (fun acc k => acc + f k) 0 =
      ∑ k ∈ Finset.range n, f k
  | 0 => rfl
  | n + 1 => by
    rw [List.range_succ, List.foldl_append, foldlAddRange f n,
      Finset.sum_range_succ]
    rfl

/-! ### Chunk lemmas: a buffer of length `r * c` decomposes into its
`r` rows of width `c`. -/

theorem chunkRows_nil {T : Type} (c : Nat) : chunkRows c ([] : List T) = [] := by
  simp [chunkRows, chunkRowsAux]

theorem chunkRows_cons {T : Type} (c : Nat) (hc : 0 < c) (r : Nat)
    (l : List T) (h : l.length = (r + 1) * c) :
    chunkRows c l = l.take c :: chunkRows c (l.drop c) := by
  have hne : ¬ l.isEmpty := by
    simp only [List.isEmpty_iff]
    intro hnil
    rw [hnil] at h
    simp only [List.length_nil] at h
    have : 0 < (r + 1) * c := Nat.mul_pos (Nat.succ_pos r) hc
    omega
  have hdiv : l.length / c = r + 1 := by rw [h]; exact Nat.mul_div_cancel _ hc
  have hdrop : (l.drop c).length = r * c := by
    simp only [List.length_drop, h]
    rw [Nat.succ_mul]
    omega
  have hdiv2 : (l.drop c).length / c = r := by
    rw [hdrop]; exact Nat.mul_div_cancel _ hc
  rw [chunkRows, hdiv, chunkRowsAux, if_neg (by simpa using hne),
    chunkRows, hdiv2]

theorem chunkRows_map {T : Type} (c : Nat) (hc : 0 < c) :
    ∀ (r : Nat) (l : List T), l.length = r * c →
      chunkRows c l = (List.range r).map (fun i => (l.drop (i * c)).take c)
  | 0, l, h => by
    have : l = [] := List.length_eq_zero.mp (by omega)
    subst this
    simp [chunkRows_nil]
  | r + 1, l, h => by
    have ih := chunkRows_map c hc r (l.drop c)
      (by simp only [List.length_drop, h]; rw [Nat.succ_mul]; omega)
    rw [chunkRows_cons c hc r l h, ih, List.range_succ_eq_map, List.map_cons,
      List.map_map]
    refine congrArg₂ _ (by simp) (List.map_congr_left ?_)
    intro i _
    simp only [Function.comp_apply]
    rw [List.drop_drop]
    congr 2
    rw [Nat.succ_mul]
    omega

theorem chunkRows_length {T : Type} (c : Nat) (hc : 0 < c) (r : Nat)
    (l : List T) (h : l.length = r * c) : (chunkRows c l).length = r := by
  rw [chunkRows_map c hc r l h]
  simp

theorem chunkRows_flatten {T : Type} (c : Nat) (hc : 0 < c) :
    ∀ (r : Nat) (l : List T), l.length = r * c → (chunkRows c l).flatten = l
  | 0, l, h => by
    have : l = [] := List.length_eq_zero.mp (by omega)
    subst this
    simp [chunkRows_nil]
  | r + 1, l, h => by
    have ih := chunkRows_flatten c hc r (l.drop c)
      (by simp only [List.length_drop, h]; rw [Nat.succ_mul]; omega)
    rw [chunkRows_cons c hc r l h, List.flatten_cons, ih,
      List.take_append_drop]

theorem chunkRows_mem_length {T : Type} (c : Nat) (hc : 0 < c) (r : Nat)
    (l : List T) (h : l.length = r * c) :
    ∀ x ∈ chunkRows c l, x.length = c := by
  rw [chunkRows_map c hc r l h]
  intro x hx
  simp only [List.mem_map, List.mem_range] at hx
  obtain ⟨i, hi, rfl⟩ := hx
  simp only [List.length_take, List.length_drop, h]
  have : i + 1 ≤ r := hi
  have : (i + 1) * c ≤ r * c := Nat.mul_le_mul_right c this
  rw [Nat.succ_mul] at this
  omega

theorem chunkRows_replicate {T : Type} (c : Nat) (hc : 0 < c) :
    ∀ (r : Nat) (z : T),
      chunkRows c (List.replicate (r * c) z) = List.replicate r (List.replicate c z)
  | 0, z => by simp [chunkRows_nil]
  | r + 1, z => by
    have hlen : (List.replicate ((r + 1) * c) z).length = (r + 1) * c := by simp
    rw [chunkRows_cons c hc r _ hlen]
    have h1 : (List.replicate ((r + 1) * c) z).take c = List.replicate c z := by
      rw [List.take_replicate]
      congr 1
      have : c ≤ (r + 1) * c := Nat.le_mul_of_pos_left c (Nat.succ_pos r)
      omega
    have h2 : (List.replicate ((r + 1) * c) z).drop c = List.replicate (r * c) z := by
      rw [List.drop_replicate]
      congr 1
      rw [Nat.succ_mul]
      omega
    rw [h1, h2, chunkRows_replicate c hc r z, List.replicate_succ]

/-! ### Behaviour of `Rows` on a buffer holding a list of rows -/

section RowsLemmas

variable {T : Type} {c : Nat}

theorem Rows.len_flatten (hc : 0 < c) (L : List (List T))
    (hL : ∀ x ∈ L, x.length = c) : Rows.len ⟨L.flatten, c⟩ = L.length := by
  simp only [Rows.len, flattenLength c L hL]
  exact Nat.mul_div_cancel _ hc

theorem Rows.next_nil : Rows.next (⟨[], c⟩ : Rows T) = .ok (none, ⟨[], c⟩) := by
  simp [Rows.next]

theorem Rows.next_flatten_cons (hc : 0 < c) (x : List T) (t : List (List T))
    (hL : ∀ y ∈ x :: t, y.length = c) :
    Rows.next ⟨(x :: t).flatten, c⟩ = .ok (some x, ⟨t.flatten, c⟩) := by
  have hx : x.length = c := hL x (by simp)
  have hne : ¬ (x :: t).flatten.isEmpty := by
    simp only [List.flatten_cons, List.isEmpty_iff, List.append_eq_nil]
    intro ⟨h1, _⟩
    rw [h1] at hx
    simp only [List.length_nil] at hx
    omega
  have hlen : c ≤ (x :: t).flatten.length := by
    simp only [List.flatten_cons, List.length_append, hx]
    omega
  rw [Rows.next, if_neg (by simpa using hne), if_pos hlen]
  simp only [List.flatten_cons, ← hx, List.take_left, List.drop_left]

theorem Rows.drain_flatten (hc : 0 < c) :
    ∀ (L : List (List T)), (∀ x ∈ L, x.length = c) →
      Rows.drain (L.length + 1) (⟨L.flatten, c⟩ : Rows T) = .ok L
  | [], _ => by simp [Rows.drain, Rows.next_nil]
  | x :: t, hL => by
    have ih := Rows.drain_flatten hc t (fun y hy => hL y (by simp [hy]))
    simp only [List.length_cons]
    rw [Rows.drain, Rows.next_flatten_cons hc x t hL]
    simp [ih, Except.map]

theorem Rows.nth_flatten_lt (hc : 0 < c) (L : List (List T))
    (hL : ∀ x ∈ L, x.length = c) (n : Nat) (hn : n < L.length) :
    Rows.nth (⟨L.flatten, c⟩ : Rows T) n =
      .ok (some (L.getD n []), ⟨(L.drop (n + 1)).flatten, c⟩) := by
  have hflat : L.flatten.length = L.length * c := flattenLength c L hL
  have hguard : ¬ n > Rows.len ⟨L.flatten, c⟩ := by
    rw [Rows.len_flatten hc L hL]
    omega
  have hpast : n * c + c ≤ L.flatten.length := by
    rw [hflat]
    have : (n + 1) * c ≤ L.length * c := Nat.mul_le_mul_right c hn
    rw [Nat.succ_mul] at this
    omega
  rw [Rows.nth, if_neg hguard]
  simp only [if_pos hpast]
  rw [flattenRow c L hL n hn]
  have : n * c + c = (n + 1) * c := by rw [Nat.succ_mul]
  rw [this, flattenDrop c L hL (n + 1)]

theorem Rows.nth_flatten_gt (hc : 0 < c) (L : List (List T))
    (hL : ∀ x ∈ L, x.length = c) (n : Nat) (hn : L.length < n) :
    Rows.nth (⟨L.flatten, c⟩ : Rows T) n = .ok (none, ⟨[], c⟩) := by
  rw [Rows.nth, if_pos (by rw [Rows.len_flatten hc L hL]; omega)]

theorem Rows.nth_flatten_len (hc : 0 < c) (L : List (List T))
    (hL : ∀ x ∈ L, x.length = c) :
    Rows.nth (⟨L.flatten, c⟩ : Rows T) L.length = .error () := by
  have hflat : L.flatten.length = L.length * c := flattenLength c L hL
  rw [Rows.nth, if_neg (by rw [Rows.len_flatten hc L hL]; omega)]
  simp only [hflat]
  rw [if_neg (by omega)]

theorem Rows.last_flatten (hc : 0 < c) (L : List (List T))
    (hL : ∀ x ∈ L, x.length = c) :
    Rows.last (⟨L.flatten, c⟩ : Rows T) = .ok L.getLast? := by
  cases L with
  | nil => simp [Rows.last]
  | cons x t =>
    have hx : x.length = c := hL x (by simp)
    have hflat : (x :: t).flatten.length = (t.length + 1) * c := by
      rw [flattenLength c _ hL]
      simp only [List.length_cons]
    have hne : ¬ (x :: t).flatten.isEmpty := by
      simp only [List.isEmpty_iff, ← List.length_eq_zero, hflat]
      have : 0 < (t.length + 1) * c := Nat.mul_pos (Nat.succ_pos _) hc
      omega
    have hle : c ≤ (x :: t).flatten.length := by
      rw [hflat]
      have : 1 * c ≤ (t.length + 1) * c := Nat.mul_le_mul_right c (by omega)
      omega
    rw [Rows.last, if_neg (by simpa using hne), if_pos hle]
    have harith : (x :: t).flatten.length - c = ((x :: t).length - 1) * c := by
      rw [hflat]
      simp only [List.length_cons, Nat.add_sub_cancel, Nat.succ_mul]
    rw [harith, flattenDrop c _ hL, dropLengthPred (x :: t) (by simp),
      List.flatten_cons, List.flatten_nil, List.append_nil,
      List.getLast?_eq_getLast _ (by simp)]

theorem Rows.advanceMany_flatten (hc : 0 < c) :
    ∀ (k : Nat) (L : List (List T)), (∀ x ∈ L, x.length = c) →
      k < L.length →
      Rows.advanceMany (⟨L.flatten, c⟩ : Rows T) k =
        .ok (some (L.getD k []), ⟨(L.drop (k + 1)).flatten, c⟩)
  | 0, [], _, hk => by simp at hk
  | 0, x :: t, hL, _ => by
    rw [Rows.advanceMany, Rows.next_flatten_cons hc x t hL]
    rfl
  | k + 1, [], _, hk => by simp at hk
  | k + 1, x :: t, hL, hk => by
    have ih := Rows.advanceMany_flatten hc k t
      (fun y hy => hL y (by simp [hy])) (by simpa using hk)
    rw [Rows.advanceMany, Rows.next_flatten_cons hc x t hL]
    show Rows.advanceMany ⟨t.flatten, c⟩ k = _
    rw [ih]
    rfl

end RowsLemmas

/-! ### Behaviour of `RowsMut` on a window of `r` rows -/

section RowsMutLemmas

variable {c : Nat}

theorem RowsMut.len_window (hc : 0 < c) (s r : Nat) :
    RowsMut.len ⟨s, s + r * c, c⟩ = r := by
  simp only [RowsMut.len, Nat.add_sub_cancel_left]
  exact Nat.mul_div_cancel _ hc

theorem RowsMut.next_window_zero (s : Nat) :
    RowsMut.next ⟨s, s + 0 * c, c⟩ = .ok (none, ⟨s, s + 0 * c, c⟩) := by
  simp [RowsMut.next]

theorem RowsMut.next_window_succ (hc : 0 < c) (s r : Nat) :
    RowsMut.next ⟨s, s + (r + 1) * c, c⟩ =
      .ok (some ⟨s, c⟩, ⟨s + c, s + (r + 1) * c, c⟩) := by
  have h1 : ¬ s + (r + 1) * c ≤ s := by
    have : 0 < (r + 1) * c := Nat.mul_pos (Nat.succ_pos r) hc
    omega
  have h2 : s + c ≤ s + (r + 1) * c := by
    have : 1 * c ≤ (r + 1) * c := Nat.mul_le_mul_right c (by omega)
    omega
  rw [RowsMut.next, if_neg h1, if_pos h2]

theorem RowsMut.nth_window_lt (hc : 0 < c) (s r k : Nat) (hk : k < r) :
    RowsMut.nth ⟨s, s + r * c, c⟩ k =
      .ok (some ⟨s + k * c, c⟩, ⟨s + (k + 1) * c, s + r * c, c⟩) := by
  have hguard : ¬ k > RowsMut.len ⟨s, s + r * c, c⟩ := by
    rw [RowsMut.len_window hc s r]
    omega
  have hpast : s + (k * c + c) ≤ s + r * c := by
    have : (k + 1) * c ≤ r * c := Nat.mul_le_mul_right c hk
    rw [Nat.succ_mul] at this
    omega
  rw [RowsMut.nth, if_neg hguard]
  simp only [if_pos hpast]
  have : k * c + c = (k + 1) * c := by rw [Nat.succ_mul]
  rw [this]

theorem RowsMut.nth_window_eq (hc : 0 < c) (s r : Nat) :
    RowsMut.nth ⟨s, s + r * c, c⟩ r = .error () := by
  have hguard : ¬ r > RowsMut.len ⟨s, s + r * c, c⟩ := by
    rw [RowsMut.len_window hc s r]
    omega
  rw [RowsMut.nth, if_neg hguard]
  simp only [if_neg (show ¬ s + (r * c + c) ≤ s + r * c by omega)]

theorem RowsMut.nth_window_gt (hc : 0 < c) (s r k : Nat) (hk : r < k) :
    RowsMut.nth ⟨s, s + r * c, c⟩ k =
      .ok (none, ⟨s + r * c, s + r * c, c⟩) := by
  rw [RowsMut.nth, if_pos (by rw [RowsMut.len_window hc s r]; omega)]

theorem RowsMut.last_window_zero (s : Nat) :
    RowsMut.last ⟨s, s + 0 * c, c⟩ = .ok none := by
  simp [RowsMut.last]

theorem RowsMut.last_window_succ (hc : 0 < c) (s r : Nat) :
    RowsMut.last ⟨s, s + (r + 1) * c, c⟩ =
      .ok (some ⟨s + r * c, c⟩) := by
  have h1 : ¬ s + (r + 1) * c ≤ s := by
    have : 0 < (r + 1) * c := Nat.mul_pos (Nat.succ_pos r) hc
    omega
  have h2 : c ≤ s + (r + 1) * c - s := by
    have : 1 * c ≤ (r + 1) * c := Nat.mul_le_mul_right c (by omega)
    omega
  rw [RowsMut.last, if_neg h1, if_pos h2]
  have : s + (r + 1) * c - c = s + r * c := by
    rw [Nat.succ_mul]
    omega
  rw [this]

theorem RowsMut.drain_window (hc : 0 < c) :
    ∀ (r s : Nat), RowsMut.drain (r + 1) ⟨s, s + r * c, c⟩ =
      .ok ((List.range r).map (fun i => (⟨s + i * c, c⟩ : RowView)))
  | 0, s => by
    rw [RowsMut.drain, RowsMut.next_window_zero]
    simp
  | r + 1, s => by
    have harith : s + (r + 1) * c = (s + c) + r * c := by
      rw [Nat.succ_mul]
      omega
    have ih := RowsMut.drain_window hc r (s + c)
    rw [RowsMut.drain, RowsMut.next_window_succ hc s r]
    show Except.map _ (RowsMut.drain (r + 1) ⟨s + c, s + (r + 1) * c, c⟩) = _
    rw [harith, ih]
    simp only [Except.map, List.range_succ_eq_map, List.map_cons, List.map_map]
    refine congrArg _ (congrArg₂ _ (by simp) (List.map_congr_left ?_))
    intro i _
    simp only [Function.comp_apply, RowView.mk.injEq, and_true]
    rw [Nat.succ_mul]
    omega

theorem RowsMut.advanceMany_window (hc : 0 < c) :
    ∀ (k r s : Nat), k < r →
      RowsMut.advanceMany ⟨s, s + r * c, c⟩ k =
        .ok (some ⟨s + k * c, c⟩, ⟨s + (k + 1) * c, s + r * c, c⟩)
  | 0, 0, s, hk => by omega
  | 0, r + 1, s, _ => by
    have h0 : s + 0 * c = s := by ring_nf
    have h1 : s + (0 + 1) * c = s + c := by ring_nf
    rw [RowsMut.advanceMany, RowsMut.next_window_succ hc s r, h0, h1]
  | k + 1, 0, s, hk => by omega
  | k + 1, r + 1, s, hk => by
    have harith : s + (r + 1) * c = s + c + r * c := by ring
    have ih := RowsMut.advanceMany_window hc k r (s + c) (by omega)
    have e1 : s + c + k * c = s + (k + 1) * c := by ring
    have e2 : s + c + (k + 1) * c = s + (k + 1 + 1) * c := by ring
    have e3 : s + c + r * c = s + (r + 1) * c := by ring
    rw [RowsMut.advanceMany, RowsMut.next_window_succ hc s r]
    show RowsMut.advanceMany ⟨s + c, s + (r + 1) * c, c⟩ k = _
    rw [harith, ih, e1, e2, e3]

end RowsMutLemmas

/-! ### Multiplication lemmas -/

section MulLemmas

variable {T : Type}

theorem Matrix.full_ok (r c : Nat) (v : T) (hr : 0 < r) (hc : 0 < c) :
    Matrix.full r c v = .ok ⟨List.replicate (r * c) v, r, c⟩ := by
  rw [Matrix.full, if_neg (by omega), if_neg (by omega)]

theorem Matrix.row_length (m : Matrix T) (h : m.Wf) (i : Nat)
    (hi : i < m.num_rows) : (m.row i).length = m.num_columns := by
  obtain ⟨hr, hc, hl⟩ := h
  simp only [Matrix.row, List.length_take, List.length_drop, hl]
  have : (i + 1) * m.num_columns ≤ m.num_rows * m.num_columns :=
    Nat.mul_le_mul_right _ hi
  rw [Nat.succ_mul] at this
  omega

theorem chunkRows_data_eq_rows (m : Matrix T) (h : m.Wf) :
    chunkRows m.num_columns m.data =
      (List.range m.num_rows).map (fun i => m.row i) := by
  obtain ⟨hr, hc, hl⟩ := h
  rw [chunkRows_map m.num_columns hc m.num_rows m.data hl]
  rfl

theorem foldlRowUpdate_length [Add T] [Mul T] (q : Nat) :
    ∀ (pairs : List (List T × T)) (ci : List T), ci.length = q →
      (∀ p ∈ pairs, (p.1 : List T).length = q) →
      (pairs.foldl (fun acc p => rowUpdate acc p.1 p.2) ci).length = q
  | [], _, h, _ => h
  | p :: t, ci, h, hp => by
    have hlen : (rowUpdate ci p.1 p.2).length = q := by
      simp [rowUpdate, h, hp p (by simp)]
    exact foldlRowUpdate_length q t _ hlen (fun p2 hp2 => hp p2 (by simp [hp2]))

theorem foldlRowUpdate_getD [Zero T] [Add T] [Mul T] (q j : Nat) (hj : j < q) :
    ∀ (pairs : List (List T × T)) (ci : List T), ci.length = q →
      (∀ p ∈ pairs, (p.1 : List T).length = q) →
      (pairs.foldl (fun acc p => rowUpdate acc p.1 p.2) ci).getD j 0 =
        pairs.foldl (fun acc p => acc + p.2 * p.1.getD j 0) (ci.getD j 0)
  | [], _, _, _ => rfl
  | p :: t, ci, h, hp => by
    have hp1 : (p.1 : List T).length = q := hp p (by simp)
    have hzip : j < (ci.zip p.1).length := by
      rw [List.length_zip]
      omega
    have hup : (rowUpdate ci p.1 p.2).getD j 0 =
        ci.getD j 0 + p.2 * p.1.getD j 0 := by
      rw [rowUpdate,
        List.getD_eq_getElem _ _ (by simpa using hzip), List.getElem_map,
        List.getElem_zip, List.getD_eq_getElem _ _ (by omega),
        List.getD_eq_getElem _ _ (by omega)]
    have hlen : (rowUpdate ci p.1 p.2).length = q := by
      simp [rowUpdate, h, hp1]
    have ih := foldlRowUpdate_getD q j hj t (rowUpdate ci p.1 p.2) hlen
      (fun p2 hp2 => hp p2 (by simp [hp2]))
    rw [List.foldl_cons, List.foldl_cons, ih, hup]

theorem getD_replicate_lt (q j : Nat) (z : T) (hj : j < q) :
    (List.replicate q z).getD j z = z := by
  rw [List.getD_eq_getElem _ _ (by simpa using hj), List.getElem_replicate]

theorem mulRow_eq [Zero T] [Add T] [Mul T] (a b : Matrix T)
    (ha : a.Wf) (hb : b.Wf) (hab : a.num_columns = b.num_rows)
    (i : Nat) (hi : i < a.num_rows) :
    mulRowLoop (chunkRows b.num_columns b.data) (a.row i)
        (List.replicate b.num_columns 0) =
      (List.range b.num_columns).map (fun j =>
        (List.range a.num_columns).foldl
          (fun res k => res + a.entry i k * b.entry k j) 0) := by
  have hbrows := chunkRows_data_eq_rows b hb
  have hai : (a.row i).length = b.num_rows := by
    rw [Matrix.row_length a ha i hi, hab]
  have hairep : a.row i =
      (List.range b.num_rows).map (fun k => (a.row i).getD k 0) := by
    conv_lhs => rw [← listGetDRange 0 (a.row i)]
    rw [hai]
  have hpairs : (chunkRows b.num_columns b.data).zip (a.row i) =
      (List.range b.num_rows).map
        (fun k => (b.row k, (a.row i).getD k 0)) := by
    conv_lhs => rw [hbrows, hairep]
    rw [List.zip_map']
  have hmem : ∀ p ∈ (chunkRows b.num_columns b.data).zip (a.row i),
      (p.1 : List T).length = b.num_columns := by
    intro p hp
    rw [hpairs] at hp
    simp only [List.mem_map, List.mem_range] at hp
    obtain ⟨k, hk, rfl⟩ := hp
    exact Matrix.row_length b hb k hk
  apply List.ext_getElem
  · rw [mulRowLoop,
      foldlRowUpdate_length b.num_columns _ _ (by simp) hmem]
    simp
  · intro j h1 h2
    have hq : j < b.num_columns := by
      rw [mulRowLoop,
        foldlRowUpdate_length b.num_columns _ _ (by simp) hmem] at h1
      exact h1
    rw [← List.getD_eq_getElem _ 0 h1, mulRowLoop,
      foldlRowUpdate_getD b.num_columns j hq _ _ (by simp) hmem,
      getD_replicate_lt _ _ _ hq, hpairs, List.foldl_map,
      List.getElem_map, List.getElem_range]
    rw [hab]
    rfl

/-- The common explicit value of both multiplication routines on
well-formed, shape-compatible inputs. -/
theorem matmul_naive_ok [Zero T] [Add T] [Mul T] (a b : Matrix T)
    (ha : a.Wf) (hb : b.Wf) (hab : a.num_columns = b.num_rows) :
    matmul_naive a b = .ok
      ⟨((List.range a.num_rows).map (fun i =>
          (List.range b.num_columns).map (fun j =>
            (List.range a.num_columns).foldl
              (fun res k => res + a.entry i k * b.entry k j) 0))).flatten,
        a.num_rows, b.num_columns⟩ := by
  rw [matmul_naive, if_neg (by simp [hab]), Matrix.zeros,
    Matrix.full_ok _ _ _ ha.1 hb.2.1]

theorem matrixMul_ok [Zero T] [Add T] [Mul T] (a b : Matrix T)
    (ha : a.Wf) (hb : b.Wf) (hab : a.num_columns = b.num_rows) :
    Matrix.mul a b = .ok
      ⟨((List.range a.num_rows).map (fun i =>
          (List.range b.num_columns).map (fun j =>
            (List.range a.num_columns).foldl
              (fun res k => res + a.entry i k * b.entry k j) 0))).flatten,
        a.num_rows, b.num_columns⟩ := by
  rw [Matrix.mul, if_neg (by simp [hab]), Matrix.zeros,
    Matrix.full_ok _ _ _ ha.1 hb.2.1]
  have hrepl : chunkRows b.num_columns
      (List.replicate (a.num_rows * b.num_columns) (0 : T)) =
      List.replicate a.num_rows (List.replicate b.num_columns 0) :=
    chunkRows_replicate b.num_columns hb.2.1 a.num_rows 0
  have harows := chunkRows_data_eq_rows a ha
  have hzip : (chunkRows b.num_columns
        (List.replicate (a.num_rows * b.num_columns) (0 : T))).zip
          (chunkRows a.num_columns a.data) =
      ((List.range a.num_rows).map (fun i => a.row i)).map
        (fun y => (List.replicate b.num_columns 0, y)) := by
    rw [hrepl, harows, listReplicateZipLen _ _ _ (by simp)]
  simp only [hzip, List.map_map]
  congr 1
  refine congrArg (fun d => Matrix.mk d a.num_rows b.num_columns)
    (congrArg List.flatten (List.map_congr_left ?_))
  intro i hi
  simp only [Function.comp_apply]
  exact mulRow_eq a b ha hb hab i (by simpa using hi)

theorem mulEqNaive [Zero T] [Add T] [Mul T] (a b : Matrix T)
    (ha : a.Wf) (hb : b.Wf) : Matrix.mul a b = matmul_naive a b := by
  by_cases hab : a.num_columns = b.num_rows
  · rw [matrixMul_ok a b ha hb hab, matmul_naive_ok a b ha hb hab]
  · rw [Matrix.mul, matmul_naive, if_pos hab, if_pos hab]

theorem matmulNaiveMath [AddCommMonoid T] [Mul T] (a b : Matrix T)
    (ha : a.Wf) (hb : b.Wf) (hab : a.num_columns = b.num_rows) :
    matmul_naive a b = .ok (mathProduct a b) := by
  rw [matmul_naive_ok a b ha hb hab, mathProduct]
  refine congrArg _ (congrArg (fun d => Matrix.mk d a.num_rows b.num_columns)
    (congrArg List.flatten (List.map_congr_left ?_)))
  intro i _
  refine List.map_congr_left ?_
  intro j _
  exact foldlAddRange (fun k => a.entry i k * b.entry k j) a.num_columns

theorem mathProduct_wf [AddCommMonoid T] [Mul T] (a b : Matrix T)
    (ha : a.Wf) (hb : b.Wf) : (mathProduct a b).Wf := by
  refine ⟨ha.1, hb.2.1, ?_⟩
  show (((List.range a.num_rows).map (fun i =>
      (List.range b.num_columns).map (fun j =>
        ∑ k ∈ Finset.range a.num_columns,
          a.entry i k * b.entry k j))).flatten).length =
    a.num_rows * b.num_columns
  rw [flattenLength b.num_columns _ ?_]
  · simp
  · intro x hx
    simp only [List.mem_map, List.mem_range] at hx
    obtain ⟨k, _, rfl⟩ := hx
    simp

theorem mathProduct_entry [AddCommMonoid T] [Mul T] (a b : Matrix T)
    (i j : Nat) (hi : i < a.num_rows) (hj : j < b.num_columns) :
    (mathProduct a b).entry i j =
      ∑ k ∈ Finset.range a.num_columns, a.entry i k * b.entry k j := by
  have hrowlen : ∀ x ∈ (List.range a.num_rows).map (fun i =>
      (List.range b.num_columns).map (fun j =>
        ∑ k ∈ Finset.range a.num_columns, a.entry i k * b.entry k j)),
      x.length = b.num_columns := by
    intro x hx
    simp only [List.mem_map, List.mem_range] at hx
    obtain ⟨k, _, rfl⟩ := hx
    simp
  have hLlen : i < ((List.range a.num_rows).map (fun i =>
      (List.range b.num_columns).map (fun j =>
        ∑ k ∈ Finset.range a.num_columns,
          a.entry i k * b.entry k j))).length := by simpa using hi
  show (((mathProduct a b).data.drop
    (i * (mathProduct a b).num_columns)).take
      (mathProduct a b).num_columns).getD j 0 = _
  show ((((List.range a.num_rows).map (fun i =>
      (List.range b.num_columns).map (fun j =>
        ∑ k ∈ Finset.range a.num_columns,
          a.entry i k * b.entry k j))).flatten.drop
    (i * b.num_columns)).take b.num_columns).getD j 0 = _
  rw [flattenRow b.num_columns _ hrowlen i hLlen,
    List.getD_eq_getElem _ [] hLlen]
  simp only [List.getElem_map, List.getElem_range]
  rw [List.getD_eq_getElem _ _ (by simpa using hj)]
  simp

end MulLemmas

/-! ### Further iterator lemmas for mid-iteration states -/

section MidStateLemmas

variable {T : Type} {c : Nat}

theorem Rows.next_flatten_drop (hc : 0 < c) (L : List (List T))
    (hL : ∀ x ∈ L, x.length = c) (i : Nat) (hi : i < L.length) :
    Rows.next (⟨(L.drop i).flatten, c⟩ : Rows T) =
      .ok (some (L.getD i []), ⟨(L.drop (i + 1)).flatten, c⟩) := by
  rw [List.drop_eq_getElem_cons hi,
    Rows.next_flatten_cons hc _ _ ?_, List.getD_eq_getElem _ [] hi]
  intro y hy
  rcases List.mem_cons.mp hy with rfl | hmem
  · exact hL _ (List.getElem_mem hi)
  · exact hL y (List.mem_of_mem_drop hmem)

theorem RowsMut.last_window (hc : 0 < c) (s r : Nat) :
    RowsMut.last ⟨s, s + r * c, c⟩ =
      .ok (((List.range r).map
        (fun i => (⟨s + i * c, c⟩ : RowView))).getLast?) := by
  cases r with
  | zero => simpa using RowsMut.last_window_zero (c := c) s
  | succ r =>
    rw [RowsMut.last_window_succ hc s r, List.range_succ, List.map_append]
    simp [List.getLast?_concat]

end MidStateLemmas

/-! ### Well-formedness of constructed matrices -/

section WfLemmas

variable {T : Type}

theorem Matrix.full_wf (r c : Nat) (v : T) (M : Matrix T)
    (h : Matrix.full r c v = .ok M) : M.Wf := by
  rw [Matrix.full] at h
  by_cases hr : r = 0
  · rw [if_pos hr] at h
    cases h
  · rw [if_neg hr] at h
    by_cases hc2 : c = 0
    · rw [if_pos hc2] at h
      cases h
    · rw [if_neg hc2] at h
      cases h
      exact ⟨by show 0 < r; omega, by show 0 < c; omega,
        by show (List.replicate (r * c) v).length = r * c; simp⟩

theorem Matrix.fromRows_wf (r c : Nat) (arr : List (List T)) (M : Matrix T)
    (h : Matrix.fromRows r c arr = .ok M) (hlen : arr.length = r)
    (hrows : ∀ row ∈ arr, row.length = c) : M.Wf := by
  rw [Matrix.fromRows] at h
  by_cases hr : r = 0
  · rw [if_pos hr] at h
    cases h
  · rw [if_neg hr] at h
    by_cases hc2 : c = 0
    · rw [if_pos hc2] at h
      cases h
    · rw [if_neg hc2] at h
      cases h
      refine ⟨by show 0 < r; omega, by show 0 < c; omega, ?_⟩
      show arr.flatten.length = r * c
      rw [flattenLength c arr hrows, hlen]

theorem mulResult_wf [Zero T] [Add T] [Mul T] (a b M : Matrix T)
    (ha : a.Wf) (hb : b.Wf) (h : Matrix.mul a b = .ok M) : M.Wf := by
  by_cases hab : a.num_columns = b.num_rows
  · rw [matrixMul_ok a b ha hb hab] at h
    cases h
    refine ⟨ha.1, hb.2.1, ?_⟩
    show (((List.range a.num_rows).map (fun i =>
        (List.range b.num_columns).map (fun j =>
          (List.range a.num_columns).foldl
            (fun res k => res + a.entry i k * b.entry k j) 0))).flatten).length =
      a.num_rows * b.num_columns
    rw [flattenLength b.num_columns _ ?_]
    · simp
    · intro x hx
      simp only [List.mem_map, List.mem_range] at hx
      obtain ⟨i, _, rfl⟩ := hx
      simp
  · rw [Matrix.mul, if_pos hab] at h
    cases h

theorem naiveResult_wf [Zero T] [Add T] [Mul T] (a b M : Matrix T)
    (ha : a.Wf) (hb : b.Wf) (h : matmul_naive a b = .ok M) : M.Wf := by
  rw [← mulEqNaive a b ha hb] at h
  exact mulResult_wf a b M ha hb h

theorem swapThrough_length (buf : List T) (va vb : RowView) (i j : Nat) :
    (swapThrough buf va vb i j).length = buf.length := by
  simp only [swapThrough]
  split <;> simp

end WfLemmas

/-! ### The claims -/

/-- C1: for all well-formed matrices `A`, `B` over a numeric element
type (addition a commutative monoid, as for the integers) with
`A.num_columns = B.num_rows`, both `matmul_naive` and `Matrix::mul`
return the matrix of shape `(A.num_rows, B.num_columns)` whose cell
`(i, j)` is the mathematical inner product
`∑ k < A.num_columns, A[i][k] * B[k][j]`; in particular the two results
equal each other and the mathematical product exactly. -/
theorem claim1_multiply_matches_math {T : Type} [AddCommMonoid T] [Mul T]
    (a b : Matrix T) (ha : a.Wf) (hb : b.Wf)
    (hab : a.num_columns = b.num_rows) :
    matmul_naive a b = .ok (mathProduct a b) ∧
    Matrix.mul a b = .ok (mathProduct a b) ∧
    (mathProduct a b).num_rows = a.num_rows ∧
    (mathProduct a b).num_columns = b.num_columns ∧
    ∀ i < a.num_rows, ∀ j < b.num_columns,
      (mathProduct a b).entry i j =
        ∑ k ∈ Finset.range a.num_columns, a.entry i k * b.entry k j := by
  have hnaive := matmulNaiveMath a b ha hb hab
  refine ⟨hnaive, ?_, rfl, rfl, ?_⟩
  · rw [mulEqNaive a b ha hb, hnaive]
  · intro i hi j hj
    exact mathProduct_entry a b i j hi hj

/-- Witness for C1: the spec's concrete scenario 1,
`[[0,1],[2,3],[4,5]] * [[6],[7]] = [[7],[33],[59]]` over the integers. -/
theorem claim1_witness :
    ((⟨[0, 1, 2, 3, 4, 5], 3, 2⟩ : Matrix Int).Wf ∧
      (⟨[6, 7], 2, 1⟩ : Matrix Int).Wf ∧
      (⟨[0, 1, 2, 3, 4, 5], 3, 2⟩ : Matrix Int).num_columns =
        (⟨[6, 7], 2, 1⟩ : Matrix Int).num_rows) ∧
    mathProduct (⟨[0, 1, 2, 3, 4, 5], 3, 2⟩ : Matrix Int) ⟨[6, 7], 2, 1⟩ =
      ⟨[7, 33, 59], 3, 1⟩ ∧
    (matmul_naive (⟨[0, 1, 2, 3, 4, 5], 3, 2⟩ : Matrix Int) ⟨[6, 7], 2, 1⟩ =
        .ok (mathProduct ⟨[0, 1, 2, 3, 4, 5], 3, 2⟩ ⟨[6, 7], 2, 1⟩) ∧
      Matrix.mul (⟨[0, 1, 2, 3, 4, 5], 3, 2⟩ : Matrix Int) ⟨[6, 7], 2, 1⟩ =
        .ok (mathProduct ⟨[0, 1, 2, 3, 4, 5], 3, 2⟩ ⟨[6, 7], 2, 1⟩) ∧
      (mathProduct (⟨[0, 1, 2, 3, 4, 5], 3, 2⟩ : Matrix Int)
          ⟨[6, 7], 2, 1⟩).num_rows = 3 ∧
      (mathProduct (⟨[0, 1, 2, 3, 4, 5], 3, 2⟩ : Matrix Int)
          ⟨[6, 7], 2, 1⟩).num_columns = 1 ∧
      ∀ i < 3, ∀ j < 1,
        (mathProduct (⟨[0, 1, 2, 3, 4, 5], 3, 2⟩ : Matrix Int)
            ⟨[6, 7], 2, 1⟩).entry i j =
          ∑ k ∈ Finset.range 2,
            (⟨[0, 1, 2, 3, 4, 5], 3, 2⟩ : Matrix Int).entry i k *
              (⟨[6, 7], 2, 1⟩ : Matrix Int).entry k j) :=
  ⟨⟨by decide, by decide, by decide⟩, by decide,
    claim1_multiply_matches_math ⟨[0, 1, 2, 3, 4, 5], 3, 2⟩ ⟨[6, 7], 2, 1⟩
      (by decide) (by decide) (by decide)⟩

/-- C2 (code bug): the claim says `skip_to(n)` with `n ≥ remaining`
signals end-of-sequence, but the guard in both `Rows::nth` and
`RowsMut::nth` is `n > self.len()` instead of `n >= self.len()`: at
exactly `n = remaining` the slice access `[start..end]` runs past the
remaining slice and panics (embedded as `.error ()`).  Evaluated here on
3 remaining rows of width 2 with `n = 3`; for strictly greater `n` the
iterator is exhausted and returns `None` as claimed, and a subsequent
`advance()` on the exhausted iterator also returns `None`. -/
theorem claim2_nth_at_remaining_panics :
    Rows.nth (⟨[0, 1, 2, 3, 4, 5], 2⟩ : Rows Int) 3 = .error () ∧
    RowsMut.nth ⟨0, 6, 2⟩ 3 = .error () ∧
    Rows.nth (⟨[0, 1, 2, 3, 4, 5], 2⟩ : Rows Int) 4 = .ok (none, ⟨[], 2⟩) ∧
    Rows.next (⟨[], 2⟩ : Rows Int) = .ok (none, ⟨[], 2⟩) ∧
    RowsMut.nth ⟨0, 6, 2⟩ 4 = .ok (none, ⟨6, 6, 2⟩) ∧
    RowsMut.next ⟨6, 6, 2⟩ = .ok (none, ⟨6, 6, 2⟩) :=
  ⟨rfl, rfl, rfl, rfl, rfl, rfl⟩

/-- C3: with no algebraic laws assumed at all — just raw zero, addition
and multiplication — the embedded `Matrix::mul` and `matmul_naive` are
extensionally equal on well-formed inputs: both accumulate every output
cell from zero in the same increasing-`k` order, so the results are
identical with no permutation-invariance assumption. -/
theorem claim3_parallel_refines_naive {T : Type} [Zero T] [Add T] [Mul T]
    (a b : Matrix T) (ha : a.Wf) (hb : b.Wf)
    (_hab : a.num_columns = b.num_rows) :
    Matrix.mul a b = matmul_naive a b :=
  mulEqNaive a b ha hb

/-- Witness for C3 at the concrete integer matrices of scenario 1. -/
theorem claim3_witness :
    (⟨[0, 1, 2, 3, 4, 5], 3, 2⟩ : Matrix Int).Wf ∧
    (⟨[6, 7], 2, 1⟩ : Matrix Int).Wf ∧
    (⟨[0, 1, 2, 3, 4, 5], 3, 2⟩ : Matrix Int).num_columns =
      (⟨[6, 7], 2, 1⟩ : Matrix Int).num_rows ∧
    Matrix.mul (⟨[0, 1, 2, 3, 4, 5], 3, 2⟩ : Matrix Int) ⟨[6, 7], 2, 1⟩ =
      matmul_naive ⟨[0, 1, 2, 3, 4, 5], 3, 2⟩ ⟨[6, 7], 2, 1⟩ :=
  ⟨by decide, by decide, by decide,
    claim3_parallel_refines_naive ⟨[0, 1, 2, 3, 4, 5], 3, 2⟩ ⟨[6, 7], 2, 1⟩
      (by decide) (by decide) (by decide)⟩

/-- C4: whenever `A.num_columns ≠ B.num_rows`, both multiplication
routines fail with `DimensionMismatch` carrying the two offending sizes
(`A`'s column count and `B`'s row count); the error is produced by the
very first check, before the result allocation, so no matrix is
returned. -/
theorem claim4_dimension_mismatch {T : Type} [Zero T] [Add T] [Mul T]
    (a b : Matrix T) (hab : a.num_columns ≠ b.num_rows) :
    matmul_naive a b =
      .error (.dimensionMismatch a.num_columns b.num_rows) ∧
    Matrix.mul a b =
      .error (.dimensionMismatch a.num_columns b.num_rows) :=
  ⟨by rw [matmul_naive, if_pos hab], by rw [Matrix.mul, if_pos hab]⟩

/-- Witness for C4: the spec's concrete scenario 2 — a 3×2 by 3×1
multiplication fails reporting `columns = 2`, `rows = 3`. -/
theorem claim4_witness :
    (⟨[0, 1, 2, 3, 4, 5], 3, 2⟩ : Matrix Int).num_columns ≠
      (⟨[6, 7, 8], 3, 1⟩ : Matrix Int).num_rows ∧
    matmul_naive (⟨[0, 1, 2, 3, 4, 5], 3, 2⟩ : Matrix Int) ⟨[6, 7, 8], 3, 1⟩ =
      .error (.dimensionMismatch 2 3) ∧
    Matrix.mul (⟨[0, 1, 2, 3, 4, 5], 3, 2⟩ : Matrix Int) ⟨[6, 7, 8], 3, 1⟩ =
      .error (.dimensionMismatch 2 3) :=
  ⟨by decide,
    (claim4_dimension_mismatch ⟨[0, 1, 2, 3, 4, 5], 3, 2⟩ ⟨[6, 7, 8], 3, 1⟩
      (by decide)).1,
    (claim4_dimension_mismatch ⟨[0, 1, 2, 3, 4, 5], 3, 2⟩ ⟨[6, 7, 8], 3, 1⟩
      (by decide)).2⟩

/-- C8: the spec's concrete scenario 3.  On the 3×2 integer matrix with
buffer `[0,1,2,3,4,5]`, a single mutable row iterator yields the first
row via `skip_to(0)` (the view of cells 0–1) and the last row via
`take_last()` (the view of cells 4–5); swapping the two rows element-wise
through those views leaves the buffer equal to `[4,5,2,3,0,1]`, and the
writes are visible through subsequent row reads of the matrix. -/
theorem claim8_swap_scenario :
    (⟨[0, 1, 2, 3, 4, 5], 3, 2⟩ : Matrix Int).rows_mut = ⟨0, 6, 2⟩ ∧
    RowsMut.nth ⟨0, 6, 2⟩ 0 = .ok (some ⟨0, 2⟩, ⟨2, 6, 2⟩) ∧
    RowsMut.last ⟨2, 6, 2⟩ = .ok (some ⟨4, 2⟩) ∧
    readView ([0, 1, 2, 3, 4, 5] : List Int) ⟨0, 2⟩ = [0, 1] ∧
    readView ([0, 1, 2, 3, 4, 5] : List Int) ⟨4, 2⟩ = [4, 5] ∧
    swapThrough (swapThrough ([0, 1, 2, 3, 4, 5] : List Int)
        ⟨0, 2⟩ ⟨4, 2⟩ 0 0) ⟨0, 2⟩ ⟨4, 2⟩ 1 1 = [4, 5, 2, 3, 0, 1] ∧
    (⟨swapThrough (swapThrough ([0, 1, 2, 3, 4, 5] : List Int)
        ⟨0, 2⟩ ⟨4, 2⟩ 0 0) ⟨0, 2⟩ ⟨4, 2⟩ 1 1, 3, 2⟩ : Matrix Int).row 0 =
      [4, 5] ∧
    (⟨swapThrough (swapThrough ([0, 1, 2, 3, 4, 5] : List Int)
        ⟨0, 2⟩ ⟨4, 2⟩ 0 0) ⟨0, 2⟩ ⟨4, 2⟩ 1 1, 3, 2⟩ : Matrix Int).row 1 =
      [2, 3] ∧
    (⟨swapThrough (swapThrough ([0, 1, 2, 3, 4, 5] : List Int)
        ⟨0, 2⟩ ⟨4, 2⟩ 0 0) ⟨0, 2⟩ ⟨4, 2⟩ 1 1, 3, 2⟩ : Matrix Int).row 2 =
      [0, 1] ∧
    (⟨swapThrough (swapThrough ([0, 1, 2, 3, 4, 5] : List Int)
        ⟨0, 2⟩ ⟨4, 2⟩ 0 0) ⟨0, 2⟩ ⟨4, 2⟩ 1 1, 3, 2⟩ : Matrix Int).as_flattened =
      [4, 5, 2, 3, 0, 1] :=
  ⟨rfl, rfl, rfl, rfl, rfl, rfl, rfl, rfl, rfl, rfl⟩

/-- C5: for every well-formed R×C matrix and every `k < R`, `skip_to(k)`
on a fresh iterator from `rows()` or `rows_mut()` returns the same row
that `k+1` consecutive `advance()` calls on another fresh iterator
return last (row `k`), in the identical iterator state, leaving
`R - k - 1` rows remaining, with the next retrieval yielding row `k + 1`
(when `k + 1 < R`; end-of-sequence when `k` was the final row). -/
theorem claim5_skip_to_fresh {T : Type} (m : Matrix T) (h : m.Wf)
    (k : Nat) (hk : k < m.num_rows) : SkipToFresh m k := by
  obtain ⟨hr, hc, hl⟩ := h
  have hmem := chunkRows_mem_length m.num_columns hc m.num_rows m.data hl
  have hLlen := chunkRows_length m.num_columns hc m.num_rows m.data hl
  have hflat := chunkRows_flatten m.num_columns hc m.num_rows m.data hl
  have hgetD : ∀ i, i < m.num_rows →
      (chunkRows m.num_columns m.data).getD i [] = m.row i := by
    intro i hi
    rw [chunkRows_data_eq_rows m ⟨hr, hc, hl⟩,
      List.getD_eq_getElem _ _ (by simpa using hi)]
    simp
  have hdf : ∀ i, (List.drop i (chunkRows m.num_columns m.data)).flatten =
      m.data.drop (i * m.num_columns) := by
    intro i
    rw [← flattenDrop m.num_columns _ hmem i, hflat]
  have hkL : k < (chunkRows m.num_columns m.data).length := by rwa [hLlen]
  refine ⟨⟨?_, ?_, ?_, ?_, ?_⟩, ?_, ?_, rfl, ?_, ?_⟩
  · -- Rows.nth
    have h1 := Rows.nth_flatten_lt hc _ hmem k hkL
    rw [hflat, hgetD k hk, hdf (k + 1)] at h1
    exact h1
  · -- Rows.advanceMany
    have h2 := Rows.advanceMany_flatten hc k _ hmem hkL
    rw [hflat, hgetD k hk, hdf (k + 1)] at h2
    exact h2
  · -- remaining count
    have h3 := Rows.len_flatten hc
      ((chunkRows m.num_columns m.data).drop (k + 1))
      (fun x hx => hmem x (List.mem_of_mem_drop hx))
    rw [hdf (k + 1)] at h3
    rw [h3, List.length_drop, hLlen]
    omega
  · -- next retrieval yields row k+1
    intro hk1
    have hk1L : k + 1 < (chunkRows m.num_columns m.data).length := by
      rwa [hLlen]
    have h4 := Rows.next_flatten_drop hc _ hmem (k + 1) hk1L
    rw [hdf (k + 1), hdf (k + 2), hgetD (k + 1) hk1] at h4
    exact h4
  · -- k was the final row: end of sequence
    intro hk1
    have hempty : m.data.drop ((k + 1) * m.num_columns) = [] := by
      rw [← hdf (k + 1)]
      have : (chunkRows m.num_columns m.data).drop (k + 1) = [] := by
        rw [← hLlen] at hk1
        rw [hk1]
        exact List.drop_length _
      rw [this]
      rfl
    rw [hempty]
    exact Rows.next_nil
  · -- RowsMut.nth
    have hwin : m.rows_mut = ⟨0, 0 + m.num_rows * m.num_columns,
        m.num_columns⟩ := by
      simp [Matrix.rows_mut, hl]
    have h6 := RowsMut.nth_window_lt hc 0 m.num_rows k hk
    rw [← hwin] at h6
    simp only [Nat.zero_add] at h6
    rw [← hl] at h6
    exact h6
  · -- RowsMut.advanceMany
    have hwin : m.rows_mut = ⟨0, 0 + m.num_rows * m.num_columns,
        m.num_columns⟩ := by
      simp [Matrix.rows_mut, hl]
    have h7 := RowsMut.advanceMany_window hc k m.num_rows 0 hk
    rw [← hwin] at h7
    simp only [Nat.zero_add] at h7
    rw [← hl] at h7
    exact h7
  · -- remaining count, mutable variant
    have h9 : m.data.length = (k + 1) * m.num_columns +
        (m.num_rows - k - 1) * m.num_columns := by
      rw [hl, ← Nat.add_mul]
      congr 1
      omega
    rw [h9]
    exact RowsMut.len_window hc _ _
  · -- next retrieval, mutable variant
    intro hk1
    refine ⟨?_, rfl⟩
    have h10 : m.data.length = (k + 1) * m.num_columns +
        ((m.num_rows - k - 2) + 1) * m.num_columns := by
      rw [hl, ← Nat.add_mul]
      congr 1
      omega
    have e : (k + 1) * m.num_columns + m.num_columns =
        (k + 2) * m.num_columns := by ring
    rw [h10, RowsMut.next_window_succ hc ((k + 1) * m.num_columns)
      (m.num_rows - k - 2), e]

/-- Witness for C5 on the 3×2 integer matrix with buffer
`[0,1,2,3,4,5]` at `k = 1`. -/
theorem claim5_witness :
    ((⟨[0, 1, 2, 3, 4, 5], 3, 2⟩ : Matrix Int).Wf ∧
      1 < (⟨[0, 1, 2, 3, 4, 5], 3, 2⟩ : Matrix Int).num_rows) ∧
    SkipToFresh (⟨[0, 1, 2, 3, 4, 5], 3, 2⟩ : Matrix Int) 1 :=
  ⟨⟨by decide, by decide⟩,
    claim5_skip_to_fresh ⟨[0, 1, 2, 3, 4, 5], 3, 2⟩ (by decide) 1 (by decide)⟩

/-- C6: iterating `rows()` of a well-formed R×C matrix to exhaustion
yields exactly R slices, each of length C, in increasing row order
(slice `i` is row `i`, so the first advance returns row 0), and the
concatenation of all yielded slices equals `as_flattened()`. -/
theorem claim6_rows_exhaustion {T : Type} (m : Matrix T) (h : m.Wf) :
    RowsExhaustion m := by
  obtain ⟨hr, hc, hl⟩ := h
  have hmem := chunkRows_mem_length m.num_columns hc m.num_rows m.data hl
  have hLlen := chunkRows_length m.num_columns hc m.num_rows m.data hl
  have hflat := chunkRows_flatten m.num_columns hc m.num_rows m.data hl
  refine ⟨?_, hLlen, hmem, ?_, hflat⟩
  · have hd := Rows.drain_flatten hc (chunkRows m.num_columns m.data) hmem
    rw [hLlen, hflat] at hd
    exact hd
  · intro i hi
    rw [chunkRows_data_eq_rows m ⟨hr, hc, hl⟩,
      List.getD_eq_getElem _ _ (by simpa using hi)]
    simp

/-- Witness for C6 on the 3×2 integer matrix with buffer
`[0,1,2,3,4,5]`. -/
theorem claim6_witness :
    (⟨[0, 1, 2, 3, 4, 5], 3, 2⟩ : Matrix Int).Wf ∧
    RowsExhaustion (⟨[0, 1, 2, 3, 4, 5], 3, 2⟩ : Matrix Int) :=
  ⟨by decide, claim6_rows_exhaustion ⟨[0, 1, 2, 3, 4, 5], 3, 2⟩ (by decide)⟩

/-- C7: on any reachable row-iterator state (immutable or mutable) whose
remaining rows are `rs` (each of width `c > 0`), `take_last()` returns
exactly the last row that forward traversal via `advance()` to
exhaustion would yield — directly, as the tail window of the remaining
slice — and the end-of-sequence signal when no rows remain. -/
theorem claim7_take_last {T : Type} (c : Nat) (hc : 0 < c)
    (rs : List (List T)) (hrs : ∀ x ∈ rs, x.length = c) (s : Nat) :
    TakeLastSpec c rs s :=
  ⟨Rows.last_flatten hc rs hrs, Rows.drain_flatten hc rs hrs,
    RowsMut.last_window hc s rs.length,
    RowsMut.drain_window hc rs.length s⟩

/-- Witness for C7: the mid-iteration state holding the two final rows
`[2,3]`, `[4,5]` of the running 3×2 example, with the mutable window
starting at offset 2. -/
theorem claim7_witness :
    (0 < 2 ∧ ∀ x ∈ ([[2, 3], [4, 5]] : List (List Int)), x.length = 2) ∧
    TakeLastSpec 2 ([[2, 3], [4, 5]] : List (List Int)) 2 :=
  ⟨⟨by decide, by decide⟩,
    claim7_take_last 2 (by decide) [[2, 3], [4, 5]] (by decide) 2⟩

/-- C9: construction with a zero row or column count — via `full` or via
`from` — always fails with `InvalidDimension` naming the offending
dimension (the row count is checked first), and never returns a
matrix. -/
theorem claim9_zero_dimension {T : Type} (v : T) (r c : Nat)
    (arr : List (List T)) (h : r = 0 ∨ c = 0) :
    Matrix.full r c v =
      .error (.invalidDimension (if r = 0 then "rows" else "columns")) ∧
    Matrix.fromRows r c arr =
      .error (.invalidDimension (if r = 0 then "rows" else "columns")) := by
  by_cases hr : r = 0
  · rw [if_pos hr]
    exact ⟨by rw [Matrix.full, if_pos hr], by rw [Matrix.fromRows, if_pos hr]⟩
  · have hc : c = 0 := by tauto
    rw [if_neg hr]
    exact ⟨by rw [Matrix.full, if_neg hr, if_pos hc],
      by rw [Matrix.fromRows, if_neg hr, if_pos hc]⟩

/-- Witness for C9 at `rows = 0`, `cols = 3`. -/
theorem claim9_witness :
    ((0 : Nat) = 0 ∨ (3 : Nat) = 0) ∧
    Matrix.full 0 3 (5 : Int) =
      .error (.invalidDimension (if (0 : Nat) = 0 then "rows" else "columns")) ∧
    Matrix.fromRows 0 3 ([] : List (List Int)) =
      .error (.invalidDimension (if (0 : Nat) = 0 then "rows" else "columns")) :=
  ⟨Or.inl rfl,
    (claim9_zero_dimension (5 : Int) 0 3 [] (Or.inl rfl)).1,
    (claim9_zero_dimension (5 : Int) 0 3 [] (Or.inl rfl)).2⟩

/-- C10: every matrix produced by a constructor (`full`, `new`, `zeros`,
`ones`, `from`) or by either multiplication satisfies the invariant
`num_rows > 0 ∧ num_columns > 0 ∧ data.length = num_rows * num_columns`;
row `i` occupies exactly the contiguous sub-range
`[i*num_columns, (i+1)*num_columns)` of the buffer; and the mutating
operations — an element write through row indexing, and an element swap
through mutable row views — preserve the invariant (neither resizes the
buffer nor changes the counts). -/
theorem claim10_invariants {T : Type} [Inhabited T] [Zero T] [One T]
    [Add T] [Mul T] (v : T) (r c : Nat) (M : Matrix T)
    (arr : List (List T)) (a b : Matrix T) (i j : Nat) (x : T)
    (va vb : RowView) :
    (Matrix.full r c v = .ok M → M.Wf) ∧
    (Matrix.new (T := T) r c = .ok M → M.Wf) ∧
    (Matrix.zeros (T := T) r c = .ok M → M.Wf) ∧
    (Matrix.ones (T := T) r c = .ok M → M.Wf) ∧
    (Matrix.fromRows r c arr = .ok M → arr.length = r →
      (∀ row ∈ arr, row.length = c) → M.Wf) ∧
    (a.Wf → b.Wf → Matrix.mul a b = .ok M → M.Wf) ∧
    (a.Wf → b.Wf → matmul_naive a b = .ok M → M.Wf) ∧
    (M.row i = (M.data.drop (i * M.num_columns)).take M.num_columns) ∧
    (M.Wf → (M.writeAt i j x).Wf) ∧
    (M.Wf →
      (Matrix.mk (swapThrough M.data va vb i j)
        M.num_rows M.num_columns).Wf) := by
  refine ⟨Matrix.full_wf r c v M, Matrix.full_wf r c default M,
    Matrix.full_wf r c 0 M, Matrix.full_wf r c 1 M,
    fun h h1 h2 => Matrix.fromRows_wf r c arr M h h1 h2,
    fun ha hb h => mulResult_wf a b M ha hb h,
    fun ha hb h => naiveResult_wf a b M ha hb h,
    rfl, ?_, ?_⟩
  · intro hM
    refine ⟨hM.1, hM.2.1, ?_⟩
    show (M.data.set (i * M.num_columns + j) x).length = _
    rw [List.length_set]
    exact hM.2.2
  · intro hM
    refine ⟨hM.1, hM.2.1, ?_⟩
    show (swapThrough M.data va vb i j).length = _
    rw [swapThrough_length]
    exact hM.2.2

/-- Witness for C10: a freshly constructed 2×3 integer matrix is
well-formed, and so is the result of writing through row indexing and of
swapping through row views. -/
theorem claim10_witness :
    (⟨[5, 5, 5, 5, 5, 5], 2, 3⟩ : Matrix Int).Wf ∧
    ((⟨[5, 5, 5, 5, 5, 5], 2, 3⟩ : Matrix Int).writeAt 0 1 7).Wf ∧
    (Matrix.mk (swapThrough ([5, 5, 5, 5, 5, 5] : List Int) ⟨0, 3⟩ ⟨3, 3⟩ 0 0)
      2 3).Wf := by
  obtain ⟨h1, _, _, _, _, _, _, _, h9, h10⟩ :=
    claim10_invariants (T := Int) 5 2 3 ⟨[5, 5, 5, 5, 5, 5], 2, 3⟩ []
      ⟨[0, 1, 2, 3, 4, 5], 3, 2⟩ ⟨[6, 7], 2, 1⟩ 0 1 7 ⟨0, 3⟩ ⟨3, 3⟩
  exact ⟨h1 rfl, h9 (by decide), h10 (by decide)⟩

end RustMatrix
